import Mathlib

/-!
Verification of the filename-matching core of sub_renamer.py.

The program renames ASS subtitle files so that they share the base name of
the MKV video file (in the same directory) carrying the same season/episode
marker.  We shallowly embed the Python source:

  - strings are lists of characters (`LC`);
  - the module regular expression [Ss](\d+)[-_\.]?[Ee](\d+)([-_\.]?[Ee]\d+)?
    with re.IGNORECASE is embedded as an explicit matcher.  The pattern is
    deterministic: every alternative point (the optional separator, the
    optional third group) fails in a way no backtracking can repair, so the
    greedy left-to-right reading below is exactly Python's semantics, and
    re.search is "first start position whose match attempt succeeds".
    Character classes already contain both cases, so IGNORECASE adds nothing.
    `\d` is modelled as the ASCII decimal digits;
  - os.path.splitext splits at the last dot of the name unless every
    character before that dot is itself a dot;
  - the Python dict is an association list whose insert overwrites in place,
    exactly dict's behaviour;
  - all filenames live in one directory, so os.path.join(dirpath, name) is
    identified with name (join with a fixed first argument is injective, and
    os.path.exists on such a path is membership in the directory listing);
  - printed warnings / per-file log lines become returned values: the mkv-map
    builder returns its duplicate-key warnings, and the directory pass
    returns the per-file classification list next to the (renamed, errors)
    counters that the Python function returns;
  - os.rename either succeeds (the old path disappears, the new one appears)
    or raises OSError; the OSError possibilities of the environment are an
    oracle parameter `renameErr old new : Option error`, `none` meaning the
    rename succeeds.  `noFail` is the oracle of a well-behaved filesystem.
-/

abbrev LC := List Char

/-- Characters of the regex class [-_\.] (the optional separator). -/
def isSepCh (c : Char) : Bool := c == '-' || c == '_' || c == '.'

/-- Characters of the regex class [Ee]. -/
def isECh (c : Char) : Bool := c == 'E' || c == 'e'

/-- Characters of the regex class [Ss]. -/
def isSCh (c : Char) : Bool := c == 'S' || c == 's'

/-- Greedy `\d+` / `\d*`: the maximal leading run of decimal digits and the
remainder of the input. -/
def takeDigits : LC → LC × LC
  | [] => ([], [])
  | c :: cs =>
    if c.isDigit then
      let p := takeDigits cs
      (c :: p.1, p.2)
    else ([], c :: cs)

/-- Consume the regex fragment `[-_\.]?[Ee]`, returning the rest of the
input.  The greedy optional separator needs no backtracking: a separator
character is never in [Ee]. -/
def matchSE : LC → Option LC
  | [] => none
  | c :: cs =>
    if isECh c then some cs
    else if isSepCh c then
      match cs with
      | [] => none
      | c2 :: cs2 => if isECh c2 then some cs2 else none
    else none

/-- Match the optional third capture group `([-_\.]?[Ee]\d+)?` at the current
position; `some g` returns the text captured by the group. -/
def matchGroup3 : LC → Option LC
  | [] => none
  | c :: cs =>
    if isECh c then
      match takeDigits cs with
      | ([], _) => none
      | (ds, _) => some (c :: ds)
    else if isSepCh c then
      match cs with
      | [] => none
      | c2 :: cs2 =>
        if isECh c2 then
          match takeDigits cs2 with
          | ([], _) => none
          | (ds, _) => some (c :: c2 :: ds)
        else none
    else none

/-- The three capture groups of a successful match of the module pattern. -/
structure ReMatch where
  group1 : LC
  group2 : LC
  group3 : Option LC
deriving DecidableEq, Repr

/-- Attempt to match the module pattern at the start of the input
(`re.Pattern.match` semantics at one position). -/
def matchAt : LC → Option ReMatch
  | [] => none
  | c :: cs =>
    if isSCh c then
      match takeDigits cs with
      | ([], _) => none
      | (d1, r1) =>
        match matchSE r1 with
        | none => none
        | some r2 =>
          match takeDigits r2 with
          | ([], _) => none
          | (d2, r3) => some ⟨d1, d2, matchGroup3 r3⟩
    else none

/-- `pattern.search`: the match attempt at the leftmost position where one
succeeds. -/
def reSearch : LC → Option ReMatch
  | [] => none
  | c :: cs =>
    match matchAt (c :: cs) with
    | some m => some m
    | none => reSearch cs

/-- `re.search(r"[Ee](\d+)", s)`, returning the digits of group 1: used by
_extract_base_key to read the episode number out of the third group. -/
def searchEDigits : LC → Option LC
  | [] => none
  | c :: cs =>
    if isECh c then
      match takeDigits cs with
      | ([], _) => searchEDigits cs
      | (ds, _) => some ds
    else searchEDigits cs

/-- Python `int` on a string of decimal digits. -/
def digitsToNat (ds : LC) : Nat := ds.foldl (fun acc c => 10 * acc + (c.toNat - 48)) 0

/-- The character of a single decimal digit. -/
def digitCh (n : Nat) : Char := Char.ofNat (48 + n)

/-- Decimal representation of a natural number (fuelled so that it reduces
definitionally; the fuel `n + 1` always suffices since `n / 10 < n`). -/
def natCharsAux : Nat → Nat → LC
  | 0, _ => []
  | fuel + 1, n =>
    if n < 10 then [digitCh n]
    else natCharsAux fuel (n / 10) ++ [digitCh (n % 10)]

/-- Decimal representation of a natural number, as Python's str(int). -/
def natChars (n : Nat) : LC := natCharsAux (n + 1) n

/-- Python's format specifier `02d`: zero-pad the decimal representation to a
minimum width of two. -/
def pad2 (n : Nat) : LC := if n < 10 then '0' :: natChars n else natChars n

/-- _extract_base_key: the normalized key SxxEyy, or SxxEyy-Ezz when the
third group was captured. -/
def extract_base_key (m : ReMatch) : LC :=
  let season_num := digitsToNat m.group1
  let episode_num := digitsToNat m.group2
  let base_key := 'S' :: pad2 season_num ++ 'E' :: pad2 episode_num
  match m.group3 with
  | none => base_key
  | some g =>
    match searchEDigits g with
    | none => base_key
    | some ds => base_key ++ '-' :: 'E' :: pad2 (digitsToNat ds)

/-- Search the stem and, on a hit, produce the normalized key: the
composition `_extract_base_key (pattern.search stem)` used at every call
site of the extractor. -/
def extractKey (stem : LC) : Option LC := (reSearch stem).map extract_base_key

/-- Helper of `splitext`: split at the last dot, `some (root, ext)` with
`ext` starting at that dot; `none` when the name has no dot. -/
def splitextAux : LC → Option (LC × LC)
  | [] => none
  | c :: cs =>
    match splitextAux cs with
    | some p => some (c :: p.1, p.2)
    | none => if c = '.' then some ([], c :: cs) else none

/-- os.path.splitext on a bare filename: split at the last dot unless all
characters before it are dots (leading dots never begin an extension). -/
def splitext (s : LC) : LC × LC :=
  match splitextAux s with
  | none => (s, [])
  | some p => if p.1.all (fun c => c = '.') then (s, []) else p

/-- ASCII str.lower on one character. -/
def lowerCh (c : Char) : Char :=
  match c with
  | 'A' => 'a' | 'B' => 'b' | 'C' => 'c' | 'D' => 'd' | 'E' => 'e'
  | 'F' => 'f' | 'G' => 'g' | 'H' => 'h' | 'I' => 'i' | 'J' => 'j'
  | 'K' => 'k' | 'L' => 'l' | 'M' => 'm' | 'N' => 'n' | 'O' => 'o'
  | 'P' => 'p' | 'Q' => 'q' | 'R' => 'r' | 'S' => 's' | 'T' => 't'
  | 'U' => 'u' | 'V' => 'v' | 'W' => 'w' | 'X' => 'x' | 'Y' => 'y'
  | 'Z' => 'z'
  | c => c

/-- str.lower. -/
def lowerStr (s : LC) : LC := s.map lowerCh

/-- The literal ".mkv". -/
def mkvExt : LC := ['.', 'm', 'k', 'v']

/-- The literal ".ass". -/
def assExt : LC := ['.', 'a', 's', 's']

/-- `f.lower().endswith(".mkv")`. -/
def isMkvFile (f : LC) : Bool := decide (mkvExt <:+ lowerStr f)

/-- `f.lower().endswith(".ass")`. -/
def isAssFile (f : LC) : Bool := decide (assExt <:+ lowerStr f)

/-- Lookup in the association-list model of the Python dict. -/
def findKey : List (LC × LC) → LC → Option LC
  | [], _ => none
  | p :: rest, k => if p.1 = k then some p.2 else findKey rest k

/-- Insertion in the association-list model of the Python dict: overwrite in
place when the key is present, append otherwise. -/
def insertKey : List (LC × LC) → LC → LC → List (LC × LC)
  | [], k, v => [(k, v)]
  | p :: rest, k, v =>
    if p.1 = k then (p.1, v) :: rest else p :: insertKey rest k v

/-- The keys of the association-list dict. -/
def keysOf (d : List (LC × LC)) : List LC := d.map Prod.fst

/-- One step of _build_mkv_map's loop body: on a video file whose stem
matches the pattern, warn if the key is already present (recording the key,
the stem already stored and the new stem), then overwrite. -/
def buildStep (acc : List (LC × LC) × List (LC × LC × LC)) (filename : LC) :
    List (LC × LC) × List (LC × LC × LC) :=
  let name_only := (splitext filename).1
  match reSearch name_only with
  | none => acc
  | some m =>
    let base_key := extract_base_key m
    let warns :=
      match findKey acc.1 base_key with
      | some old => acc.2 ++ [(base_key, old, name_only)]
      | none => acc.2
    (insertKey acc.1 base_key name_only, warns)

/-- _build_mkv_map restricted to an already-filtered video list. -/
def buildFromMkv (mkv_files : List LC) : List (LC × LC) × List (LC × LC × LC) :=
  mkv_files.foldl buildStep ([], [])

/-- _build_mkv_map: the key-to-stem lookup built from the .mkv files of the
directory, together with the duplicate-key warnings it printed. -/
def build_mkv_map (filenames : List LC) : List (LC × LC) × List (LC × LC × LC) :=
  buildFromMkv (filenames.filter isMkvFile)

/-- Line 114 of the source: the target filename is the matched video's stem
plus the subtitle's own extension lower-cased. -/
def new_filename (target_mkv_name_base ext : LC) : LC :=
  target_mkv_name_base ++ lowerStr ext

/-- The per-file classification, one constructor per log line of
_rename_single_ass_file. -/
inductive Classif where
  | noKey : Classif
  | noMatch : Classif
  | alreadyCorrect : Classif
  | collision : Classif
  | renamed : Classif
  | renameFailed : LC → Classif
deriving DecidableEq, Repr

/-- _rename_single_ass_file.  `renameErr` is the filesystem oracle (which
OSError, if any, os.rename raises on a given old/new pair); `fs` is the
current directory listing.  Returns the (success, skipped) pair of the
source, the classification it printed, and the directory listing after the
call. -/
def rename_single_ass_file (renameErr : LC → LC → Option LC) (filename : LC)
    (mkv_basename_map : List (LC × LC)) (fs : List LC) :
    (Bool × Bool) × Classif × List LC :=
  let name_only := (splitext filename).1
  let ext := (splitext filename).2
  match reSearch name_only with
  | none => ((false, true), Classif.noKey, fs)
  | some m =>
    let ass_base_key := extract_base_key m
    match findKey mkv_basename_map ass_base_key with
    | none => ((false, true), Classif.noMatch, fs)
    | some target_mkv_name_base =>
      let newName := new_filename target_mkv_name_base ext
      if filename = newName then ((false, true), Classif.alreadyCorrect, fs)
      else if newName ∈ fs ∧ newName ≠ filename then
        ((false, false), Classif.collision, fs)
      else
        match renameErr filename newName with
        | some e => ((false, false), Classif.renameFailed e, fs)
        | none => ((true, false), Classif.renamed, fs.erase filename ++ [newName])

/-- The observable state of one directory pass: the two counters
_process_directory returns, the current directory listing, and the
classification log. -/
structure DirResult where
  renamed : Nat
  errors : Nat
  fs : List LC
  outcomes : List Classif
deriving DecidableEq, Repr

/-- The loop body of _process_directory: run _rename_single_ass_file on one
subtitle file, bump the counter the source bumps. -/
def dirStep (renameErr : LC → LC → Option LC) (mp : List (LC × LC))
    (st : DirResult) (filename : LC) : DirResult :=
  let r := rename_single_ass_file renameErr filename mp st.fs
  { renamed := st.renamed + (if r.1.1 then 1 else 0)
    errors := st.errors + (if r.1.1 then 0 else if r.1.2 then 0 else 1)
    fs := r.2.2
    outcomes := st.outcomes ++ [r.2.1] }

/-- The subtitle files of a directory listing, in listing order. -/
def assFilesOf (filenames : List LC) : List LC := filenames.filter isAssFile

/-- _process_directory: build the mkv map from the listing, then process
every .ass file of the listing in order.  The .ass list is the snapshot
taken at entry, the existence checks run on the live listing. -/
def process_directory (renameErr : LC → LC → Option LC) (filenames : List LC) :
    DirResult :=
  let mp := (build_mkv_map filenames).1
  (assFilesOf filenames).foldl (dirStep renameErr mp) ⟨0, 0, filenames, []⟩

/-- The oracle of a filesystem on which os.rename never raises. -/
def noFail : LC → LC → Option LC := fun _ _ => none

/-- The (key, stem) pairs the video files of a listing contribute to the
lookup, in listing order. -/
def mkvPairs (filenames : List LC) : List (LC × LC) :=
  (filenames.filter isMkvFile).filterMap
    (fun f => (extractKey (splitext f).1).map (fun k => (k, (splitext f).1)))

/-- The value attached to the last pair of the list carrying the given key,
if any: the reference "last write wins" reading of duplicate keys. -/
def lastVal : List (LC × LC) → LC → Option LC
  | [], _ => none
  | p :: rest, k =>
    match lastVal rest k with
    | some v => some v
    | none => if p.1 = k then some p.2 else none

/-- How many pairs of the list carry the given key. -/
def countKey (ps : List (LC × LC)) (k : LC) : Nat :=
  (ps.filter (fun p => p.1 = k)).length

/-- True when the head of the list, if any, is not a decimal digit: the
condition under which greedy `\d+` stops exactly at a digit-block boundary. -/
def headNonDigit : LC → Bool
  | [] => true
  | c :: _ => !c.isDigit

/-- Classifications that bump the error counter of _process_directory:
exactly the (success=false, skipped=false) outcomes. -/
def isErrC : Classif → Bool
  | Classif.collision => true
  | Classif.renameFailed _ => true
  | _ => false

/-- A subtitle file none of whose resolutions can rename it: every key/stem
resolution through the lookup yields a target that is the file itself or an
occupied name.  The second run of the matcher finds every file in this
state. -/
def SkipCond (mp : List (LC × LC)) (fs : List LC) (f : LC) : Prop :=
  ∀ m v, reSearch (splitext f).1 = some m →
    findKey mp (extract_base_key m) = some v →
    new_filename v (splitext f).2 = f ∨ new_filename v (splitext f).2 ∈ fs

/-- Every pair of the lookup is honest: the stored stem's own first match
produces the key it is stored under. -/
def GoodMap (mp : List (LC × LC)) : Prop :=
  ∀ p ∈ mp, extractKey p.2 = some p.1


/-- The action of _build_mkv_map's loop body on one already-extracted
(key, stem) pair: warn when the key is occupied, then overwrite. -/
def pairStep (acc : List (LC × LC) × List (LC × LC × LC)) (p : LC × LC) :
    List (LC × LC) × List (LC × LC × LC) :=
  let warns :=
    match findKey acc.1 p.1 with
    | some old => acc.2 ++ [(p.1, old, p.2)]
    | none => acc.2
  (insertKey acc.1 p.1 p.2, warns)

/-- The (key, stem) pairs a list of files contributes, in order: stems of
the files on which the pattern matches, tagged with their keys. -/
def filesPairs (files : List LC) : List (LC × LC) :=
  files.filterMap (fun f => (extractKey (splitext f).1).map (fun k => (k, (splitext f).1)))

theorem isECh_not_digit (c : Char) (h : isECh c = true) : c.isDigit = false := by
  have hc : c = 'E' ∨ c = 'e' := by
    rcases Bool.or_eq_true_iff.mp h with h1 | h1
    · exact Or.inl (by exact_mod_cast beq_iff_eq.mp h1)
    · exact Or.inr (by exact_mod_cast beq_iff_eq.mp h1)
  rcases hc with rfl | rfl <;> decide

theorem isSCh_not_dot (c : Char) (h : isSCh c = true) : c ≠ '.' := by
  intro hc
  subst hc
  simp [isSCh] at h

theorem takeDigits_of_headNonDigit (r : LC) (hr : headNonDigit r = true) :
    takeDigits r = ([], r) := by
  cases r with
  | nil => rfl
  | cons c cs =>
    simp only [headNonDigit, Bool.not_eq_true'] at hr
    simp [takeDigits, hr]

theorem takeDigits_append (ds r : LC) (hds : ∀ c ∈ ds, c.isDigit = true)
    (hr : headNonDigit r = true) : takeDigits (ds ++ r) = (ds, r) := by
  induction ds with
  | nil => simpa using takeDigits_of_headNonDigit r hr
  | cons c cs ih =>
    have hc : c.isDigit = true := hds c (by simp)
    have h2 := ih (fun x hx => hds x (by simp [hx]))
    simp [takeDigits, hc, h2]

theorem headNonDigit_sep_cons (sep : LC) (c2 : Char) (r : LC)
    (hsep : sep = [] ∨ sep = ['-'] ∨ sep = ['_'] ∨ sep = ['.'])
    (hc2 : isECh c2 = true) :
    headNonDigit (sep ++ c2 :: r) = true := by
  rcases hsep with h | h | h | h <;> subst h
  · simp [headNonDigit, isECh_not_digit c2 hc2]
  all_goals simp [headNonDigit]

theorem matchSE_marker (sep : LC) (c2 : Char) (r : LC)
    (hsep : sep = [] ∨ sep = ['-'] ∨ sep = ['_'] ∨ sep = ['.'])
    (hc2 : isECh c2 = true) :
    matchSE (sep ++ c2 :: r) = some r := by
  rcases hsep with h | h | h | h <;> subst h <;>
    simp [matchSE, isECh, isSepCh, hc2] <;>
    first
      | rfl
      | (rcases Bool.or_eq_true_iff.mp hc2 with h1 | h1 <;> simp_all)

theorem matchGroup3_marker (sep : LC) (c3 : Char) (ds r : LC)
    (hsep : sep = [] ∨ sep = ['-'] ∨ sep = ['_'] ∨ sep = ['.'])
    (hc3 : isECh c3 = true) (hds : ds ≠ []) (hdig : ∀ c ∈ ds, c.isDigit = true)
    (hr : headNonDigit r = true) :
    matchGroup3 (sep ++ c3 :: (ds ++ r)) = some (sep ++ c3 :: ds) := by
  have htd : takeDigits (ds ++ r) = (ds, r) := takeDigits_append ds r hdig hr
  cases ds with
  | nil => exact absurd rfl hds
  | cons d ds0 =>
    rcases hsep with h | h | h | h <;> subst h <;>
      simp_all [matchGroup3, isECh, isSepCh]

theorem matchAt_marker (c1 : Char) (ds sep : LC) (c2 : Char) (es suf : LC)
    (hc1 : isSCh c1 = true) (hds : ds ≠ []) (hdig1 : ∀ c ∈ ds, c.isDigit = true)
    (hsep : sep = [] ∨ sep = ['-'] ∨ sep = ['_'] ∨ sep = ['.'])
    (hc2 : isECh c2 = true) (hes : es ≠ []) (hdig2 : ∀ c ∈ es, c.isDigit = true)
    (hsuf : headNonDigit suf = true) :
    matchAt (c1 :: (ds ++ (sep ++ c2 :: (es ++ suf)))) =
      some ⟨ds, es, matchGroup3 suf⟩ := by
  have h1 : takeDigits (ds ++ (sep ++ c2 :: (es ++ suf))) =
      (ds, sep ++ c2 :: (es ++ suf)) :=
    takeDigits_append _ _ hdig1 (headNonDigit_sep_cons sep c2 _ hsep hc2)
  have h2 : matchSE (sep ++ c2 :: (es ++ suf)) = some (es ++ suf) :=
    matchSE_marker sep c2 _ hsep hc2
  have h3 : takeDigits (es ++ suf) = (es, suf) := takeDigits_append _ _ hdig2 hsuf
  cases ds with
  | nil => exact absurd rfl hds
  | cons d ds0 =>
    cases es with
    | nil => exact absurd rfl hes
    | cons e es0 =>
      simp only [List.cons_append] at h1 h2 h3
      simp [matchAt, hc1, h1, h2, h3]

theorem matchAt_none_of_notS (c : Char) (cs : LC) (h : isSCh c = false) :
    matchAt (c :: cs) = none := by
  simp [matchAt, h]

theorem reSearch_cons_of_matchAt (c : Char) (cs : LC) (m : ReMatch)
    (h : matchAt (c :: cs) = some m) : reSearch (c :: cs) = some m := by
  simp [reSearch, h]

theorem reSearch_append_of_noS (pre r : LC) (hpre : ∀ c ∈ pre, isSCh c = false) :
    reSearch (pre ++ r) = reSearch r := by
  induction pre with
  | nil => rfl
  | cons c cs ih =>
    have h1 : matchAt (c :: (cs ++ r)) = none :=
      matchAt_none_of_notS _ _ (hpre c (by simp))
    have h2 := ih (fun x hx => hpre x (by simp [hx]))
    simp [reSearch, h1, h2]

theorem reSearch_none_of_noDigit (l : LC) (h : ∀ c ∈ l, c.isDigit = false) :
    reSearch l = none := by
  induction l with
  | nil => rfl
  | cons c cs ih =>
    have hm : matchAt (c :: cs) = none := by
      by_cases hs : isSCh c = true
      · have hcs : takeDigits cs = ([], cs) := by
          apply takeDigits_of_headNonDigit
          cases cs with
          | nil => rfl
          | cons d ds => simp [headNonDigit, h d (by simp)]
        simp [matchAt, hs, hcs]
      · exact matchAt_none_of_notS _ _ (Bool.not_eq_true _ ▸ hs)
    have h2 := ih (fun x hx => h x (by simp [hx]))
    simp [reSearch, hm, h2]

theorem reSearch_some_hasS (l : LC) (m : ReMatch) (h : reSearch l = some m) :
    ∃ c ∈ l, isSCh c = true := by
  induction l with
  | nil => simp [reSearch] at h
  | cons c cs ih =>
    by_cases hs : isSCh c = true
    · exact ⟨c, by simp, hs⟩
    · have hm : matchAt (c :: cs) = none :=
        matchAt_none_of_notS _ _ (Bool.not_eq_true _ ▸ hs)
      rw [reSearch, hm] at h
      obtain ⟨x, hx, hxs⟩ := ih h
      exact ⟨x, by simp [hx], hxs⟩

theorem searchEDigits_cons_notE (c : Char) (cs : LC) (h : isECh c = false) :
    searchEDigits (c :: cs) = searchEDigits cs := by
  simp [searchEDigits, h]

theorem searchEDigits_marker (sep : LC) (c3 : Char) (ds : LC)
    (hsep : sep = [] ∨ sep = ['-'] ∨ sep = ['_'] ∨ sep = ['.'])
    (hc3 : isECh c3 = true) (hds : ds ≠ []) (hdig : ∀ c ∈ ds, c.isDigit = true) :
    searchEDigits (sep ++ c3 :: ds) = some ds := by
  have htd : takeDigits ds = (ds, []) := by
    have := takeDigits_append ds [] hdig (by rfl)
    simpa using this
  have hbase : searchEDigits (c3 :: ds) = some ds := by
    cases ds with
    | nil => exact absurd rfl hds
    | cons d ds0 => simp [searchEDigits, hc3, htd]
  rcases hsep with h | h | h | h <;> subst h
  · simpa using hbase
  all_goals
    simp only [List.cons_append, List.nil_append]
    rw [searchEDigits_cons_notE _ _ (by decide)]
    exact hbase

theorem extractKey_marker (pre : LC) (c1 : Char) (ds sep : LC) (c2 : Char)
    (es suf : LC)
    (hpre : ∀ c ∈ pre, isSCh c = false)
    (hc1 : isSCh c1 = true) (hds : ds ≠ []) (hdig1 : ∀ c ∈ ds, c.isDigit = true)
    (hsep : sep = [] ∨ sep = ['-'] ∨ sep = ['_'] ∨ sep = ['.'])
    (hc2 : isECh c2 = true) (hes : es ≠ []) (hdig2 : ∀ c ∈ es, c.isDigit = true)
    (hsuf : headNonDigit suf = true) :
    extractKey (pre ++ c1 :: (ds ++ (sep ++ c2 :: (es ++ suf)))) =
      some (extract_base_key ⟨ds, es, matchGroup3 suf⟩) := by
  have h1 : matchAt (c1 :: (ds ++ (sep ++ c2 :: (es ++ suf)))) =
      some ⟨ds, es, matchGroup3 suf⟩ :=
    matchAt_marker c1 ds sep c2 es suf hc1 hds hdig1 hsep hc2 hes hdig2 hsuf
  have h2 := reSearch_cons_of_matchAt _ _ _ h1
  have h3 := reSearch_append_of_noS pre (c1 :: (ds ++ (sep ++ c2 :: (es ++ suf)))) hpre
  simp [extractKey, h3, h2]

theorem natCharsAux_length_pos (fuel : Nat) : ∀ k : Nat, k < fuel →
    1 ≤ (natCharsAux fuel k).length := by
  induction fuel with
  | zero => intro k hk; omega
  | succ f ih =>
    intro k hk
    by_cases h10 : k < 10
    · simp [natCharsAux, h10]
    · have hk2 : k / 10 < f := by omega
      simp only [natCharsAux, if_neg h10, List.length_append, List.length_cons,
        List.length_nil]
      omega

theorem natChars_small (n : Nat) (h : n < 10) : natChars n = [digitCh n] := by
  simp [natChars, natCharsAux, h]

theorem natChars_length_two (n : Nat) (h1 : 10 ≤ n) (h2 : n < 100) :
    (natChars n).length = 2 := by
  obtain ⟨m, rfl⟩ : ∃ m, n = m + 1 := ⟨n - 1, by omega⟩
  have ha : ¬ (m + 1 < 10) := by omega
  have hb : (m + 1) / 10 < 10 := by omega
  show (natCharsAux (m + 1 + 1) (m + 1)).length = 2
  simp only [natCharsAux, if_neg ha, if_pos hb, List.length_append,
    List.length_cons, List.length_nil]

theorem natChars_length_ge_three (n : Nat) (h : 100 ≤ n) :
    3 ≤ (natChars n).length := by
  obtain ⟨m, rfl⟩ : ∃ m, n = m + 1 := ⟨n - 1, by omega⟩
  have ha : ¬ (m + 1 < 10) := by omega
  have hb : ¬ ((m + 1) / 10 < 10) := by omega
  have hc : (m + 1) / 10 / 10 < m := by omega
  have hpos := natCharsAux_length_pos m ((m + 1) / 10 / 10) hc
  show 3 ≤ (natCharsAux (m + 1 + 1) (m + 1)).length
  simp only [natCharsAux, if_neg ha, if_neg hb, List.length_append,
    List.length_cons, List.length_nil]
  omega

theorem pad2_length_two (n : Nat) (h : n < 100) : (pad2 n).length = 2 := by
  by_cases h10 : n < 10
  · simp [pad2, h10, natChars_small n h10]
  · simp [pad2, h10, natChars_length_two n (by omega) h]

theorem pad2_eq_natChars (n : Nat) (h : 100 ≤ n) : pad2 n = natChars n := by
  simp [pad2, show ¬ (n < 10) by omega]

theorem splitextAux_append (l r : LC) (p : LC × LC) (h : splitextAux r = some p) :
    splitextAux (l ++ r) = some (l ++ p.1, p.2) := by
  induction l with
  | nil => simpa using h
  | cons c cs ih => simp [splitextAux, ih]

theorem splitextAux_none (l : LC) (h : ∀ c ∈ l, c ≠ '.') :
    splitextAux l = none := by
  induction l with
  | nil => rfl
  | cons c cs ih =>
    have h1 : c ≠ '.' := h c (by simp)
    have h2 := ih (fun x hx => h x (by simp [hx]))
    simp [splitextAux, h1, h2]

theorem splitextAux_dot_cons (t : LC) (ht : ∀ c ∈ t, c ≠ '.') :
    splitextAux ('.' :: t) = some ([], '.' :: t) := by
  simp [splitextAux, splitextAux_none t ht]

theorem splitext_append_dot (v t : LC) (ht : ∀ c ∈ t, c ≠ '.')
    (hv : ¬ ∀ c ∈ v, c = '.') :
    splitext (v ++ '.' :: t) = (v, '.' :: t) := by
  have h1 := splitextAux_append v ('.' :: t) ([], '.' :: t) (splitextAux_dot_cons t ht)
  simp only [List.append_nil] at h1
  rw [splitext, h1]
  have : (v.all fun c => c = '.') = false := by
    rw [Bool.eq_false_iff]
    intro hall
    exact hv (fun c hc => by simpa using List.all_eq_true.mp hall c hc)
  simp [this]

theorem splitext_append_dot_alldots (v t : LC) (ht : ∀ c ∈ t, c ≠ '.')
    (hv : ∀ c ∈ v, c = '.') :
    splitext (v ++ '.' :: t) = (v ++ '.' :: t, []) := by
  have h1 := splitextAux_append v ('.' :: t) ([], '.' :: t) (splitextAux_dot_cons t ht)
  simp only [List.append_nil] at h1
  rw [splitext, h1]
  have : (v.all fun c => c = '.') = true := by
    simp only [List.all_eq_true, decide_eq_true_eq]
    exact hv
  simp [this]

theorem lowerCh_eq_dot (c : Char) (h : lowerCh c = '.') : c = '.' := by
  unfold lowerCh at h
  split at h <;> simp_all

theorem lowerCh_dot : lowerCh '.' = '.' := by decide

theorem lowerCh_eq_a_facts (c : Char) (h : lowerCh c = 'a') :
    c.isDigit = false ∧ c ≠ '.' := by
  unfold lowerCh at h
  split at h <;> simp_all

theorem lowerCh_eq_s_facts (c : Char) (h : lowerCh c = 's') :
    c.isDigit = false ∧ c ≠ '.' := by
  unfold lowerCh at h
  split at h <;> simp_all

theorem isAssFile_decomp (f : LC) (h : isAssFile f = true) :
    ∃ y z1 z2 z3 z4, f = y ++ [z1, z2, z3, z4] ∧ lowerCh z1 = '.' ∧
      lowerCh z2 = 'a' ∧ lowerCh z3 = 's' ∧ lowerCh z4 = 's' := by
  have hsuf : assExt <:+ lowerStr f := of_decide_eq_true h
  obtain ⟨t, ht⟩ := hsuf
  have hmap : lowerStr f = t ++ assExt := ht.symm
  rw [lowerStr] at hmap
  obtain ⟨y, z, rfl, _, hz⟩ := List.map_eq_append_iff.mp hmap
  cases z with
  | nil => simp [assExt] at hz
  | cons z1 zr1 =>
  cases zr1 with
  | nil => simp [assExt] at hz
  | cons z2 zr2 =>
  cases zr2 with
  | nil => simp [assExt] at hz
  | cons z3 zr3 =>
  cases zr3 with
  | nil => simp [assExt] at hz
  | cons z4 zr4 =>
  cases zr4 with
  | cons z5 zr5 => simp [assExt] at hz
  | nil =>
    simp only [List.map_cons, List.map_nil, assExt, List.cons.injEq, and_true] at hz
    exact ⟨y, z1, z2, z3, z4, rfl, hz.1, hz.2.1, hz.2.2.1, hz.2.2.2⟩

theorem ass_with_key_ext (f : LC) (hass : isAssFile f = true) (m : ReMatch)
    (hm : reSearch (splitext f).1 = some m) :
    lowerStr (splitext f).2 = assExt := by
  obtain ⟨y, z1, z2, z3, z4, rfl, h1, h2, h3, h4⟩ := isAssFile_decomp f hass
  have hz1 : z1 = '.' := lowerCh_eq_dot _ h1
  subst hz1
  have hz2 := lowerCh_eq_a_facts _ h2
  have hz3 := lowerCh_eq_s_facts _ h3
  have hz4 := lowerCh_eq_s_facts _ h4
  have ht : ∀ c ∈ [z2, z3, z4], c ≠ '.' := by
    intro c hc
    simp only [List.mem_cons, List.mem_singleton, List.not_mem_nil] at hc
    rcases hc with rfl | rfl | rfl | hfalse
    · exact hz2.2
    · exact hz3.2
    · exact hz4.2
    · exact absurd hfalse (by simp)
  have hsplit : y ++ [('.' : Char), z2, z3, z4] = y ++ '.' :: [z2, z3, z4] := rfl
  by_cases hv : ∀ c ∈ y, c = '.'
  · exfalso
    have hnone : reSearch (y ++ '.' :: [z2, z3, z4]) = none := by
      apply reSearch_none_of_noDigit
      intro c hc
      rcases List.mem_append.mp hc with hcy | hcz
      · rw [hv c hcy]; decide
      · simp only [List.mem_cons, List.mem_singleton, List.not_mem_nil] at hcz
        rcases hcz with rfl | rfl | rfl | rfl | hfalse
        · decide
        · exact hz2.1
        · exact hz3.1
        · exact hz4.1
        · exact absurd hfalse (by simp)
    rw [hsplit, splitext_append_dot_alldots y [z2, z3, z4] ht hv] at hm
    rw [hnone] at hm
    exact Option.noConfusion hm
  · rw [hsplit, splitext_append_dot y [z2, z3, z4] ht hv]
    simp [lowerStr, lowerCh_dot, h2, h3, h4, assExt]

theorem splitext_value_ass (v : LC) (hS : ∃ c ∈ v, isSCh c = true) :
    splitext (v ++ assExt) = (v, assExt) := by
  have hv : ¬ ∀ c ∈ v, c = '.' := by
    obtain ⟨c, hc, hcs⟩ := hS
    intro hall
    exact isSCh_not_dot c hcs (hall c hc)
  have ht : ∀ c ∈ [('a' : Char), 's', 's'], c ≠ '.' := by
    intro c hc
    simp only [List.mem_cons, List.mem_singleton, List.not_mem_nil] at hc
    rcases hc with rfl | rfl | rfl | hfalse
    · decide
    · decide
    · decide
    · exact absurd hfalse (by simp)
  have := splitext_append_dot v ['a', 's', 's'] ht hv
  exact this

theorem findKey_insertKey_self (d : List (LC × LC)) (k v : LC) :
    findKey (insertKey d k v) k = some v := by
  induction d with
  | nil => simp [insertKey, findKey]
  | cons p rest ih =>
    by_cases h : p.1 = k
    · simp [insertKey, findKey, h]
    · simp [insertKey, findKey, h, ih]

theorem findKey_insertKey_ne (d : List (LC × LC)) (k v k2 : LC) (h : k2 ≠ k) :
    findKey (insertKey d k v) k2 = findKey d k2 := by
  have hk : ¬ k = k2 := fun he => h he.symm
  induction d with
  | nil => simp [insertKey, findKey, hk]
  | cons p rest ih =>
    by_cases hp : p.1 = k
    · have hne : ¬ p.1 = k2 := fun he => h (he.symm.trans hp)
      simp [insertKey, hp, findKey, hne, hk]
    · by_cases hp2 : p.1 = k2
      · simp [insertKey, hp, findKey, hp2, h]
      · simp [insertKey, hp, findKey, hp2, ih]

theorem mem_insertKey (d : List (LC × LC)) (k v : LC) (q : LC × LC)
    (h : q ∈ insertKey d k v) : q ∈ d ∨ q = (k, v) := by
  induction d with
  | nil => simpa [insertKey] using h
  | cons p rest ih =>
    by_cases hp : p.1 = k
    · rw [insertKey, if_pos hp] at h
      rcases List.mem_cons.mp h with h1 | h1
      · exact Or.inr (by rw [h1, hp])
      · exact Or.inl (List.mem_cons_of_mem _ h1)
    · rw [insertKey, if_neg hp] at h
      rcases List.mem_cons.mp h with h1 | h1
      · exact Or.inl (by simp [h1])
      · rcases ih h1 with h2 | h2
        · exact Or.inl (List.mem_cons_of_mem _ h2)
        · exact Or.inr h2

theorem findKey_mem (d : List (LC × LC)) (k v : LC) (h : findKey d k = some v) :
    (k, v) ∈ d := by
  induction d with
  | nil => simp [findKey] at h
  | cons p rest ih =>
    by_cases hp : p.1 = k
    · rw [findKey, if_pos hp] at h
      have : p = (k, v) := by
        cases p
        simp_all
      simp [this]
    · rw [findKey, if_neg hp] at h
      exact List.mem_cons_of_mem _ (ih h)

theorem findKey_none_iff (d : List (LC × LC)) (k : LC) :
    findKey d k = none ↔ k ∉ keysOf d := by
  induction d with
  | nil => simp [findKey, keysOf]
  | cons p rest ih =>
    by_cases hp : p.1 = k
    · simp [findKey, keysOf, hp]
    · rw [findKey, if_neg hp]
      simp only [keysOf, List.map_cons, List.mem_cons, not_or]
      rw [ih]
      constructor
      · intro hnk
        exact ⟨fun he => hp he.symm, hnk⟩
      · intro hand
        exact hand.2

theorem mem_keysOf_insertKey_self (d : List (LC × LC)) (k v : LC) :
    k ∈ keysOf (insertKey d k v) := by
  induction d with
  | nil => simp [insertKey, keysOf]
  | cons p rest ih =>
    by_cases hp : p.1 = k
    · simp [insertKey, keysOf, hp]
    · simp only [insertKey, if_neg hp, keysOf, List.map_cons, List.mem_cons]
      exact Or.inr ih

theorem mem_keysOf_insertKey_of_mem (d : List (LC × LC)) (k v k2 : LC)
    (h : k2 ∈ keysOf d) : k2 ∈ keysOf (insertKey d k v) := by
  induction d with
  | nil => simp [keysOf] at h
  | cons p rest ih =>
    by_cases hp : p.1 = k
    · simpa [insertKey, keysOf, hp] using h
    · simp only [keysOf, List.map_cons, List.mem_cons] at h
      rcases h with h1 | h1
      · simp [insertKey, if_neg hp, keysOf, h1]
      · simp only [insertKey, if_neg hp, keysOf, List.map_cons, List.mem_cons]
        exact Or.inr (ih h1)

theorem keysOf_insertKey_nodup (d : List (LC × LC)) (k v : LC)
    (h : (keysOf d).Nodup) : (keysOf (insertKey d k v)).Nodup := by
  induction d with
  | nil => simp [insertKey, keysOf]
  | cons p rest ih =>
    by_cases hp : p.1 = k
    · simpa [insertKey, keysOf, hp] using h
    · simp only [keysOf, List.map_cons, List.nodup_cons] at h
      have hn := ih h.2
      simp only [insertKey, if_neg hp, keysOf, List.map_cons, List.nodup_cons]
      refine ⟨fun hmem => ?_, hn⟩
      have : ∀ q ∈ insertKey rest k v, q.1 ∈ keysOf rest ∨ q.1 = k := by
        intro q hq
        rcases mem_insertKey rest k v q hq with h1 | h1
        · exact Or.inl (List.mem_map_of_mem Prod.fst h1)
        · exact Or.inr (by rw [h1])
      simp only [keysOf, List.mem_map] at hmem
      obtain ⟨q, hq, hq1⟩ := hmem
      rcases this q hq with h1 | h1
      · exact h.1 (hq1 ▸ h1)
      · exact hp (hq1 ▸ h1)

theorem findKey_some_of_mem_keys (d : List (LC × LC)) (k : LC)
    (h : k ∈ keysOf d) : ∃ v, findKey d k = some v := by
  cases hf : findKey d k with
  | some v => exact ⟨v, rfl⟩
  | none => exact absurd h ((findKey_none_iff d k).mp hf)

theorem buildFold_eq_pairs (files : List LC) :
    ∀ acc, files.foldl buildStep acc = (filesPairs files).foldl pairStep acc := by
  induction files with
  | nil => intro acc; rfl
  | cons f rest ih =>
    intro acc
    cases hre : reSearch (splitext f).1 with
    | none =>
      have h1 : buildStep acc f = acc := by
        rw [buildStep]
        rw [hre]
      have h2 : filesPairs (f :: rest) = filesPairs rest := by
        simp [filesPairs, List.filterMap_cons, extractKey, hre]
      rw [List.foldl_cons, h1, h2, ih]
    | some m =>
      have h1 : buildStep acc f = pairStep acc (extract_base_key m, (splitext f).1) := by
        rw [buildStep, hre, pairStep]
      have h2 : filesPairs (f :: rest) =
          (extract_base_key m, (splitext f).1) :: filesPairs rest := by
        simp [filesPairs, List.filterMap_cons, extractKey, hre]
      rw [List.foldl_cons, h1, h2, List.foldl_cons, ih]

theorem mkvPairs_eq (filenames : List LC) :
    mkvPairs filenames = filesPairs (filenames.filter isMkvFile) := rfl

theorem build_mkv_map_eq_pairs (filenames : List LC) :
    build_mkv_map filenames = (mkvPairs filenames).foldl pairStep ([], []) := by
  rw [build_mkv_map, buildFromMkv, buildFold_eq_pairs, mkvPairs_eq]

theorem findKey_pairs_foldl (ps : List (LC × LC)) :
    ∀ acc : List (LC × LC) × List (LC × LC × LC), ∀ k,
      findKey (ps.foldl pairStep acc).1 k =
        match lastVal ps k with
        | some v => some v
        | none => findKey acc.1 k := by
  induction ps with
  | nil => intro acc k; rfl
  | cons p rest ih =>
    intro acc k
    rw [List.foldl_cons, ih]
    cases hl : lastVal rest k with
    | some v => simp [lastVal, hl]
    | none =>
      by_cases hp : p.1 = k
      · subst hp
        simp [lastVal, hl, pairStep, findKey_insertKey_self]
      · simp [lastVal, hl, hp, pairStep,
          findKey_insertKey_ne acc.1 p.1 p.2 k (fun he => hp he.symm)]

theorem keys_nodup_pairs_foldl (ps : List (LC × LC)) :
    ∀ acc : List (LC × LC) × List (LC × LC × LC),
      (keysOf acc.1).Nodup → (keysOf (ps.foldl pairStep acc).1).Nodup := by
  induction ps with
  | nil => intro acc h; exact h
  | cons p rest ih =>
    intro acc h
    rw [List.foldl_cons]
    exact ih _ (keysOf_insertKey_nodup acc.1 p.1 p.2 h)

theorem goodMap_pairs_foldl (ps : List (LC × LC))
    (hps : ∀ p ∈ ps, extractKey p.2 = some p.1) :
    ∀ acc : List (LC × LC) × List (LC × LC × LC),
      GoodMap acc.1 → GoodMap (ps.foldl pairStep acc).1 := by
  induction ps with
  | nil => intro acc h; exact h
  | cons p rest ih =>
    intro acc h
    rw [List.foldl_cons]
    refine ih (fun q hq => hps q (List.mem_cons_of_mem _ hq)) _ ?_
    intro q hq
    rcases mem_insertKey acc.1 p.1 p.2 q hq with h1 | h1
    · exact h q h1
    · rw [h1]
      exact hps p (by simp)

theorem filesPairs_good (files : List LC) :
    ∀ p ∈ filesPairs files, extractKey p.2 = some p.1 := by
  intro p hp
  rw [filesPairs, List.mem_filterMap] at hp
  obtain ⟨f, _, hf⟩ := hp
  cases he : extractKey (splitext f).1 with
  | none => rw [he] at hf; exact Option.noConfusion hf
  | some k =>
    rw [he] at hf
    have hf2 : some (k, (splitext f).1) = some p := hf
    cases hf2
    exact he

theorem countKey_cons (p : LC × LC) (rest : List (LC × LC)) (k : LC) :
    countKey (p :: rest) k =
      if p.1 = k then countKey rest k + 1 else countKey rest k := by
  by_cases hp : p.1 = k <;> simp [countKey, List.filter_cons, hp]

theorem warns_append (ps : List (LC × LC)) :
    ∀ acc, ∃ w2, (ps.foldl pairStep acc).2 = acc.2 ++ w2 := by
  induction ps with
  | nil => intro acc; exact ⟨[], by simp⟩
  | cons p rest ih =>
    intro acc
    rw [List.foldl_cons]
    obtain ⟨w2, hw⟩ := ih (pairStep acc p)
    cases hfk : findKey acc.1 p.1 with
    | some old =>
      refine ⟨(p.1, old, p.2) :: w2, ?_⟩
      rw [hw]
      simp [pairStep, hfk]
    | none =>
      refine ⟨w2, ?_⟩
      rw [hw]
      simp [pairStep, hfk]

theorem warns_ne_nil_of_key_mem (ps : List (LC × LC)) (k : LC) :
    ∀ acc, 1 ≤ countKey ps k → k ∈ keysOf acc.1 →
      (ps.foldl pairStep acc).2 ≠ [] := by
  induction ps with
  | nil => intro acc h _; simp [countKey] at h
  | cons p rest ih =>
    intro acc hc hk
    rw [List.foldl_cons]
    by_cases hp : p.1 = k
    · obtain ⟨old, hold⟩ := findKey_some_of_mem_keys acc.1 k hk
      have hold2 : findKey acc.1 p.1 = some old := by rw [hp]; exact hold
      have hps : (pairStep acc p).2 = acc.2 ++ [(p.1, old, p.2)] := by
        simp [pairStep, hold2]
      obtain ⟨w2, hw⟩ := warns_append rest (pairStep acc p)
      rw [hw, hps]
      simp
    · have hc2 : 1 ≤ countKey rest k := by
        rwa [countKey_cons, if_neg hp] at hc
      exact ih _ hc2 (mem_keysOf_insertKey_of_mem acc.1 p.1 p.2 k hk)

theorem warns_ne_nil_of_dup (ps : List (LC × LC)) (k : LC) :
    ∀ acc, 2 ≤ countKey ps k → (ps.foldl pairStep acc).2 ≠ [] := by
  induction ps with
  | nil => intro acc h; simp [countKey] at h
  | cons p rest ih =>
    intro acc hc
    rw [List.foldl_cons]
    by_cases hp : p.1 = k
    · have hc2 : 1 ≤ countKey rest k := by
        rw [countKey_cons, if_pos hp] at hc
        omega
      apply warns_ne_nil_of_key_mem rest k _ hc2
      show k ∈ keysOf (insertKey acc.1 p.1 p.2)
      rw [hp]
      exact mem_keysOf_insertKey_self acc.1 k p.2
    · have hc2 : 2 ≤ countKey rest k := by
        rwa [countKey_cons, if_neg hp] at hc
      exact ih _ hc2

/-- C1: for every stem made of a prefix with no S/s character, a
season/episode marker S<digits>[sep]E<digits> in either letter case with the
separator one of hyphen, underscore, period or absent, and a suffix that
neither extends the episode digits nor forms a double-episode group, the key
extractor produces the same normalized key, depending only on the numeric
season and episode values, zero-padded to two digits: the separator style
and the letter case are invisible in the key. -/
theorem claim_C1 (pre ds sep es suf : LC) (c1 c2 : Char)
    (hpre : ∀ c ∈ pre, isSCh c = false)
    (hc1 : isSCh c1 = true) (hc2 : isECh c2 = true)
    (hds : ds ≠ []) (hdig1 : ∀ c ∈ ds, c.isDigit = true)
    (hsep : sep = [] ∨ sep = ['-'] ∨ sep = ['_'] ∨ sep = ['.'])
    (hes : es ≠ []) (hdig2 : ∀ c ∈ es, c.isDigit = true)
    (hsuf1 : headNonDigit suf = true) (hsuf2 : matchGroup3 suf = none) :
    extractKey (pre ++ c1 :: (ds ++ (sep ++ c2 :: (es ++ suf)))) =
      some ('S' :: pad2 (digitsToNat ds) ++ 'E' :: pad2 (digitsToNat es)) := by
  rw [extractKey_marker pre c1 ds sep c2 es suf hpre hc1 hds hdig1 hsep hc2 hes
    hdig2 hsuf1]
  rw [hsuf2]
  rfl

theorem claim_C1_witness :
    (extractKey ([] ++ 's' :: (['0', '5'] ++ (['_'] ++ 'E' :: (['1', '2'] ++ [])))) =
      some ('S' :: pad2 (digitsToNat ['0', '5']) ++ 'E' :: pad2 (digitsToNat ['1', '2']))) ∧
    'S' :: pad2 (digitsToNat ['0', '5']) ++ 'E' :: pad2 (digitsToNat ['1', '2']) =
      ['S', '0', '5', 'E', '1', '2'] :=
  ⟨claim_C1 [] ['0', '5'] ['_'] ['1', '2'] [] 's' 'E' (by decide) (by decide)
    (by decide) (by decide) (by decide) (by decide) (by decide) (by decide)
    (by decide) (by decide), by decide⟩

/-- C2: in the lookup built by _build_mkv_map, each key maps to the stem of
the last video file of the input list that produced it (last write wins),
the lookup has no duplicate keys (at most one stem per key), and whenever
two or more video files produce the same key a duplicate-key warning is
emitted. -/
theorem claim_C2 (filenames : List LC) (k : LC) :
    findKey (build_mkv_map filenames).1 k = lastVal (mkvPairs filenames) k ∧
    (keysOf (build_mkv_map filenames).1).Nodup ∧
    (2 ≤ countKey (mkvPairs filenames) k → (build_mkv_map filenames).2 ≠ []) := by
  rw [build_mkv_map_eq_pairs]
  refine ⟨?_, ?_, ?_⟩
  · rw [findKey_pairs_foldl]
    cases lastVal (mkvPairs filenames) k <;> simp [findKey]
  · exact keys_nodup_pairs_foldl _ _ (by simp [keysOf])
  · intro h
    exact warns_ne_nil_of_dup _ k _ h

theorem claim_C2_witness :
    (findKey (build_mkv_map [['A', '.', 'S', '1', 'E', '1', '.', 'm', 'k', 'v'],
        ['B', '.', 'S', '1', 'E', '1', '.', 'm', 'k', 'v']]).1
        ['S', '0', '1', 'E', '0', '1'] =
      lastVal (mkvPairs [['A', '.', 'S', '1', 'E', '1', '.', 'm', 'k', 'v'],
        ['B', '.', 'S', '1', 'E', '1', '.', 'm', 'k', 'v']])
        ['S', '0', '1', 'E', '0', '1']) ∧
    2 ≤ countKey (mkvPairs [['A', '.', 'S', '1', 'E', '1', '.', 'm', 'k', 'v'],
        ['B', '.', 'S', '1', 'E', '1', '.', 'm', 'k', 'v']])
        ['S', '0', '1', 'E', '0', '1'] ∧
    (build_mkv_map [['A', '.', 'S', '1', 'E', '1', '.', 'm', 'k', 'v'],
        ['B', '.', 'S', '1', 'E', '1', '.', 'm', 'k', 'v']]).2 ≠ [] :=
  ⟨(claim_C2 _ _).1, by decide,
    (claim_C2 [['A', '.', 'S', '1', 'E', '1', '.', 'm', 'k', 'v'],
      ['B', '.', 'S', '1', 'E', '1', '.', 'm', 'k', 'v']]
      ['S', '0', '1', 'E', '0', '1']).2.2 (by decide)⟩

/-- C6: the two-digit zero padding of the extractor is a minimum width, not
a maximum: numbers below 100 give exactly two digits, numbers of three or
more digits are kept whole, and concretely a stem with episode number 100
yields the key S01E100. -/
theorem claim_C6 (n : Nat) :
    (n < 100 → (pad2 n).length = 2) ∧
    (100 ≤ n → pad2 n = natChars n ∧ 3 ≤ (pad2 n).length) ∧
    extractKey ['S', '0', '1', 'E', '1', '0', '0'] =
      some ['S', '0', '1', 'E', '1', '0', '0'] := by
  refine ⟨fun h => pad2_length_two n h, fun h => ?_, by decide⟩
  rw [pad2_eq_natChars n h]
  exact ⟨rfl, natChars_length_ge_three n h⟩

theorem claim_C6_witness :
    ((5 : Nat) < 100 ∧ (pad2 5).length = 2) ∧
    ((100 : Nat) ≤ 100 ∧ pad2 100 = natChars 100) :=
  ⟨⟨by decide, (claim_C6 5).1 (by decide)⟩,
   ⟨by decide, ((claim_C6 100).2.1 (by decide)).1⟩⟩

/-- C7: a marker carrying a valid double-episode group, such as S01E02-E03,
yields the base key with -E<second episode> appended (second episode also
zero-padded to two digits); the same marker without the second group yields
the bare base key with no trailing group. -/
theorem claim_C7 (ds es es2 sep sep2 : LC) (c1 c2 c3 : Char)
    (hc1 : isSCh c1 = true) (hc2 : isECh c2 = true) (hc3 : isECh c3 = true)
    (hds : ds ≠ []) (hdig1 : ∀ c ∈ ds, c.isDigit = true)
    (hes : es ≠ []) (hdig2 : ∀ c ∈ es, c.isDigit = true)
    (hes2 : es2 ≠ []) (hdig3 : ∀ c ∈ es2, c.isDigit = true)
    (hsep : sep = [] ∨ sep = ['-'] ∨ sep = ['_'] ∨ sep = ['.'])
    (hsep2 : sep2 = [] ∨ sep2 = ['-'] ∨ sep2 = ['_'] ∨ sep2 = ['.']) :
    extractKey (c1 :: (ds ++ (sep ++ c2 :: (es ++ (sep2 ++ c3 :: es2))))) =
      some (('S' :: pad2 (digitsToNat ds) ++ 'E' :: pad2 (digitsToNat es)) ++
        '-' :: 'E' :: pad2 (digitsToNat es2)) ∧
    extractKey (c1 :: (ds ++ (sep ++ c2 :: (es ++ [])))) =
      some ('S' :: pad2 (digitsToNat ds) ++ 'E' :: pad2 (digitsToNat es)) := by
  have hg3 : matchGroup3 (sep2 ++ c3 :: es2) = some (sep2 ++ c3 :: es2) := by
    have h := matchGroup3_marker sep2 c3 es2 [] hsep2 hc3 hes2 hdig3 (by rfl)
    simpa using h
  have hsearch : searchEDigits (sep2 ++ c3 :: es2) = some es2 :=
    searchEDigits_marker sep2 c3 es2 hsep2 hc3 hes2 hdig3
  constructor
  · have h1 := extractKey_marker [] c1 ds sep c2 es (sep2 ++ c3 :: es2)
      (by simp) hc1 hds hdig1 hsep hc2 hes hdig2
      (headNonDigit_sep_cons sep2 c3 es2 hsep2 hc3)
    rw [List.nil_append] at h1
    rw [h1, hg3]
    simp only [extract_base_key, hsearch]
  · have h2 := extractKey_marker [] c1 ds sep c2 es [] (by simp) hc1 hds hdig1
      hsep hc2 hes hdig2 (by rfl)
    rw [List.nil_append] at h2
    rw [h2]
    rfl

theorem claim_C7_witness :
    (extractKey ('S' :: (['1'] ++ ([] ++ 'E' :: (['2'] ++ (['-'] ++ 'E' :: ['3']))))) =
      some (('S' :: pad2 (digitsToNat ['1']) ++ 'E' :: pad2 (digitsToNat ['2'])) ++
        '-' :: 'E' :: pad2 (digitsToNat ['3'])) ∧
     extractKey ('S' :: (['1'] ++ ([] ++ 'E' :: (['2'] ++ [])))) =
      some ('S' :: pad2 (digitsToNat ['1']) ++ 'E' :: pad2 (digitsToNat ['2']))) ∧
    ('S' :: pad2 (digitsToNat ['1']) ++ 'E' :: pad2 (digitsToNat ['2'])) ++
        '-' :: 'E' :: pad2 (digitsToNat ['3']) =
      ['S', '0', '1', 'E', '0', '2', '-', 'E', '0', '3'] :=
  ⟨claim_C7 ['1'] ['2'] ['3'] [] ['-'] 'S' 'E' 'E' (by decide) (by decide)
    (by decide) (by decide) (by decide) (by decide) (by decide) (by decide)
    (by decide) (by decide) (by decide), by decide⟩

theorem rs_noKey (o : LC → LC → Option LC) (f : LC) (mp : List (LC × LC))
    (fs : List LC) (h : reSearch (splitext f).1 = none) :
    rename_single_ass_file o f mp fs = ((false, true), Classif.noKey, fs) := by
  simp only [rename_single_ass_file, h]

theorem rs_noMatch (o : LC → LC → Option LC) (f : LC) (mp : List (LC × LC))
    (fs : List LC) (m : ReMatch) (hm : reSearch (splitext f).1 = some m)
    (hv : findKey mp (extract_base_key m) = none) :
    rename_single_ass_file o f mp fs = ((false, true), Classif.noMatch, fs) := by
  simp only [rename_single_ass_file, hm, hv]

theorem rs_already (o : LC → LC → Option LC) (f : LC) (mp : List (LC × LC))
    (fs : List LC) (m : ReMatch) (v : LC) (hm : reSearch (splitext f).1 = some m)
    (hv : findKey mp (extract_base_key m) = some v)
    (heq : f = new_filename v (splitext f).2) :
    rename_single_ass_file o f mp fs =
      ((false, true), Classif.alreadyCorrect, fs) := by
  simp only [rename_single_ass_file, hm, hv]
  rw [if_pos heq]

theorem rs_collision (o : LC → LC → Option LC) (f : LC) (mp : List (LC × LC))
    (fs : List LC) (m : ReMatch) (v : LC) (hm : reSearch (splitext f).1 = some m)
    (hv : findKey mp (extract_base_key m) = some v)
    (hne : f ≠ new_filename v (splitext f).2)
    (hmem : new_filename v (splitext f).2 ∈ fs) :
    rename_single_ass_file o f mp fs = ((false, false), Classif.collision, fs) := by
  simp only [rename_single_ass_file, hm, hv]
  rw [if_neg hne, if_pos ⟨hmem, fun he => hne he.symm⟩]

theorem rs_renameFailed (o : LC → LC → Option LC) (f : LC) (mp : List (LC × LC))
    (fs : List LC) (m : ReMatch) (v : LC) (e : LC)
    (hm : reSearch (splitext f).1 = some m)
    (hv : findKey mp (extract_base_key m) = some v)
    (hne : f ≠ new_filename v (splitext f).2)
    (hnm : new_filename v (splitext f).2 ∉ fs)
    (he : o f (new_filename v (splitext f).2) = some e) :
    rename_single_ass_file o f mp fs =
      ((false, false), Classif.renameFailed e, fs) := by
  simp only [rename_single_ass_file, hm, hv]
  rw [if_neg hne, if_neg (fun hand => hnm hand.1), he]

theorem rs_renamed (o : LC → LC → Option LC) (f : LC) (mp : List (LC × LC))
    (fs : List LC) (m : ReMatch) (v : LC)
    (hm : reSearch (splitext f).1 = some m)
    (hv : findKey mp (extract_base_key m) = some v)
    (hne : f ≠ new_filename v (splitext f).2)
    (hnm : new_filename v (splitext f).2 ∉ fs)
    (he : o f (new_filename v (splitext f).2) = none) :
    rename_single_ass_file o f mp fs =
      ((true, false), Classif.renamed,
        fs.erase f ++ [new_filename v (splitext f).2]) := by
  simp only [rename_single_ass_file, hm, hv]
  rw [if_neg hne, if_neg (fun hand => hnm hand.1), he]

theorem rs_shape (o : LC → LC → Option LC) (f : LC) (mp : List (LC × LC))
    (fs : List LC) :
    (let r := rename_single_ass_file o f mp fs
     (r.1 = (false, true) ∧ r.2.2 = fs ∧
       (r.2.1 = Classif.noKey ∨ r.2.1 = Classif.noMatch ∨
        r.2.1 = Classif.alreadyCorrect)) ∨
     (r.1 = (false, false) ∧ r.2.2 = fs ∧
       (r.2.1 = Classif.collision ∨ ∃ e, r.2.1 = Classif.renameFailed e)) ∨
     (r.1 = (true, false) ∧ r.2.1 = Classif.renamed)) := by
  cases hm : reSearch (splitext f).1 with
  | none => simp [rs_noKey o f mp fs hm]
  | some m =>
    cases hv : findKey mp (extract_base_key m) with
    | none => simp [rs_noMatch o f mp fs m hm hv]
    | some v =>
      by_cases heq : f = new_filename v (splitext f).2
      · simp [rs_already o f mp fs m v hm hv heq]
      · by_cases hmem : new_filename v (splitext f).2 ∈ fs
        · simp [rs_collision o f mp fs m v hm hv heq hmem]
        · cases he : o f (new_filename v (splitext f).2) with
          | some e => simp [rs_renameFailed o f mp fs m v e hm hv heq hmem he]
          | none => simp [rs_renamed o f mp fs m v hm hv heq hmem he]

theorem dirFold_accounting (o : LC → LC → Option LC) (mp : List (LC × LC))
    (L : List LC) :
    ∀ st : DirResult, ∃ out2 : List Classif,
      (L.foldl (dirStep o mp) st).outcomes = st.outcomes ++ out2 ∧
      out2.length = L.length ∧
      (L.foldl (dirStep o mp) st).errors = st.errors + out2.countP isErrC ∧
      (L.foldl (dirStep o mp) st).renamed =
        st.renamed + out2.countP (fun c => c = Classif.renamed) := by
  induction L with
  | nil => intro st; exact ⟨[], by simp⟩
  | cons f rest ih =>
    intro st
    rw [List.foldl_cons]
    obtain ⟨out2, ho, hl, he, hr⟩ := ih (dirStep o mp st f)
    have hδe : (dirStep o mp st f).errors = st.errors +
        (if isErrC (rename_single_ass_file o f mp st.fs).2.1 then 1 else 0) := by
      rcases rs_shape o f mp st.fs with ⟨h1, _, h3⟩ | ⟨h1, _, h3⟩ | ⟨h1, h3⟩
      · rcases h3 with h3 | h3 | h3 <;> simp [dirStep, h1, h3, isErrC]
      · rcases h3 with h3 | ⟨e, h3⟩ <;> simp [dirStep, h1, h3, isErrC]
      · simp [dirStep, h1, h3, isErrC]
    have hδr : (dirStep o mp st f).renamed = st.renamed +
        (if (rename_single_ass_file o f mp st.fs).2.1 = Classif.renamed
          then 1 else 0) := by
      rcases rs_shape o f mp st.fs with ⟨h1, _, h3⟩ | ⟨h1, _, h3⟩ | ⟨h1, h3⟩
      · rcases h3 with h3 | h3 | h3 <;> simp [dirStep, h1, h3]
      · rcases h3 with h3 | ⟨e, h3⟩ <;> simp [dirStep, h1, h3]
      · simp [dirStep, h1, h3]
    refine ⟨(rename_single_ass_file o f mp st.fs).2.1 :: out2, ?_, ?_, ?_, ?_⟩
    · rw [ho]
      simp [dirStep]
    · simp [hl]
    · rw [he, hδe, List.countP_cons]
      by_cases hc : isErrC (rename_single_ass_file o f mp st.fs).2.1 = true <;>
        simp [hc] <;> omega
    · rw [hr, hδr, List.countP_cons]
      by_cases hc : (rename_single_ass_file o f mp st.fs).2.1 = Classif.renamed <;>
        simp [hc] <;> omega

theorem process_directory_accounting (o : LC → LC → Option LC)
    (filenames : List LC) :
    (process_directory o filenames).outcomes.length = (assFilesOf filenames).length ∧
    (process_directory o filenames).errors =
      (process_directory o filenames).outcomes.countP isErrC ∧
    (process_directory o filenames).renamed =
      (process_directory o filenames).outcomes.countP
        (fun c => c = Classif.renamed) := by
  obtain ⟨out2, ho, hl, he, hr⟩ := dirFold_accounting o (build_mkv_map filenames).1
    (assFilesOf filenames) ⟨0, 0, filenames, []⟩
  have hp : process_directory o filenames =
      (assFilesOf filenames).foldl (dirStep o (build_mkv_map filenames).1)
        ⟨0, 0, filenames, []⟩ := rfl
  have ho2 : (process_directory o filenames).outcomes = out2 := by
    rw [hp, ho]
    simp
  have he2 : (process_directory o filenames).errors = out2.countP isErrC := by
    rw [hp, he]
    simp
  have hr2 : (process_directory o filenames).renamed =
      out2.countP (fun c => c = Classif.renamed) := by
    rw [hp, hr]
    simp
  exact ⟨by rw [ho2, hl], by rw [he2, ho2], by rw [hr2, ho2]⟩

/-- C4: when the computed target name differs from the subtitle's current
name and a different file already occupies the target, no rename happens:
the call returns the error pair (false, false), is classified as a
collision, and the directory listing is unchanged, so both the subtitle and
the occupying file remain present. -/
theorem claim_C4 (o : LC → LC → Option LC) (f : LC) (mp : List (LC × LC))
    (fs : List LC) (m : ReMatch) (v : LC)
    (hm : reSearch (splitext f).1 = some m)
    (hv : findKey mp (extract_base_key m) = some v)
    (hne : f ≠ new_filename v (splitext f).2)
    (hmem : new_filename v (splitext f).2 ∈ fs) :
    rename_single_ass_file o f mp fs = ((false, false), Classif.collision, fs) ∧
    (f ∈ fs → f ∈ (rename_single_ass_file o f mp fs).2.2) ∧
    new_filename v (splitext f).2 ∈ (rename_single_ass_file o f mp fs).2.2 := by
  have h := rs_collision o f mp fs m v hm hv hne hmem
  refine ⟨h, fun hf => ?_, ?_⟩
  · rw [h]
    exact hf
  · rw [h]
    exact hmem

theorem claim_C4_witness :
    rename_single_ass_file noFail
        ['x', '.', 'S', '1', 'E', '1', '.', 'a', 's', 's']
        [(['S', '0', '1', 'E', '0', '1'], ['V'])]
        [['V', '.', 'a', 's', 's'], ['x', '.', 'S', '1', 'E', '1', '.', 'a', 's', 's']] =
      ((false, false), Classif.collision,
        [['V', '.', 'a', 's', 's'], ['x', '.', 'S', '1', 'E', '1', '.', 'a', 's', 's']]) :=
  (claim_C4 noFail ['x', '.', 'S', '1', 'E', '1', '.', 'a', 's', 's']
    [(['S', '0', '1', 'E', '0', '1'], ['V'])]
    [['V', '.', 'a', 's', 's'], ['x', '.', 'S', '1', 'E', '1', '.', 'a', 's', 's']]
    ⟨['1'], ['1'], none⟩ ['V'] (by decide) (by decide) (by decide) (by decide)).1

/-- C5: a successful resolution renames the subtitle to the matched video's
stem concatenated with the subtitle's own extension lower-cased: the stem is
used verbatim, only the extension is case-normalized, and intermediate name
parts of the subtitle (language tags) do not survive.  In the spec scenario,
Show.S01E01.chs.ass next to Show.S01E01.mkv becomes Show.S01E01.ass, one
success. -/
theorem claim_C5 (o : LC → LC → Option LC) (f : LC) (mp : List (LC × LC))
    (fs : List LC) (m : ReMatch) (v : LC)
    (hm : reSearch (splitext f).1 = some m)
    (hv : findKey mp (extract_base_key m) = some v)
    (hne : f ≠ new_filename v (splitext f).2)
    (hnm : new_filename v (splitext f).2 ∉ fs)
    (ho : o f (new_filename v (splitext f).2) = none) :
    new_filename v (splitext f).2 = v ++ lowerStr (splitext f).2 ∧
    rename_single_ass_file o f mp fs =
      ((true, false), Classif.renamed,
        fs.erase f ++ [v ++ lowerStr (splitext f).2]) ∧
    (process_directory noFail
      [['S', 'h', 'o', 'w', '.', 'S', '0', '1', 'E', '0', '1', '.', 'm', 'k', 'v'],
       ['S', 'h', 'o', 'w', '.', 'S', '0', '1', 'E', '0', '1', '.', 'c', 'h', 's',
        '.', 'a', 's', 's']]).fs =
      [['S', 'h', 'o', 'w', '.', 'S', '0', '1', 'E', '0', '1', '.', 'm', 'k', 'v'],
       ['S', 'h', 'o', 'w', '.', 'S', '0', '1', 'E', '0', '1', '.', 'a', 's', 's']] ∧
    (process_directory noFail
      [['S', 'h', 'o', 'w', '.', 'S', '0', '1', 'E', '0', '1', '.', 'm', 'k', 'v'],
       ['S', 'h', 'o', 'w', '.', 'S', '0', '1', 'E', '0', '1', '.', 'c', 'h', 's',
        '.', 'a', 's', 's']]).renamed = 1 := by
  refine ⟨rfl, ?_, by decide, by decide⟩
  exact rs_renamed o f mp fs m v hm hv hne hnm ho

theorem claim_C5_witness :
    rename_single_ass_file noFail
        ['x', '.', 'S', '1', 'E', '1', '.', 'A', 's', 'S']
        [(['S', '0', '1', 'E', '0', '1'], ['V'])]
        [['x', '.', 'S', '1', 'E', '1', '.', 'A', 's', 'S']] =
      ((true, false), Classif.renamed,
        [['x', '.', 'S', '1', 'E', '1', '.', 'A', 's', 'S']].erase
            ['x', '.', 'S', '1', 'E', '1', '.', 'A', 's', 'S'] ++
          [['V'] ++ lowerStr (splitext ['x', '.', 'S', '1', 'E', '1', '.', 'A', 's', 'S']).2]) :=
  (claim_C5 noFail ['x', '.', 'S', '1', 'E', '1', '.', 'A', 's', 'S']
    [(['S', '0', '1', 'E', '0', '1'], ['V'])]
    [['x', '.', 'S', '1', 'E', '1', '.', 'A', 's', 'S']]
    ⟨['1'], ['1'], none⟩ ['V'] (by decide) (by decide) (by decide) (by decide)
    (by decide)).2.1

/-- C8: a filesystem failure of one rename is caught at per-file scope: the
call returns normally with (false, false), classified rename-failed with the
underlying error captured, the listing unchanged; and the directory pass
always yields one classification per subtitle file, for every failure
oracle, so no single failure aborts the pass. -/
theorem claim_C8 (o : LC → LC → Option LC) (filenames : List LC) (f : LC)
    (mp : List (LC × LC)) (fs : List LC) (m : ReMatch) (v e : LC)
    (hm : reSearch (splitext f).1 = some m)
    (hv : findKey mp (extract_base_key m) = some v)
    (hne : f ≠ new_filename v (splitext f).2)
    (hnm : new_filename v (splitext f).2 ∉ fs)
    (he : o f (new_filename v (splitext f).2) = some e) :
    rename_single_ass_file o f mp fs =
      ((false, false), Classif.renameFailed e, fs) ∧
    (process_directory o filenames).outcomes.length =
      (assFilesOf filenames).length :=
  ⟨rs_renameFailed o f mp fs m v e hm hv hne hnm he,
   (process_directory_accounting o filenames).1⟩

theorem claim_C8_witness :
    rename_single_ass_file (fun _ _ => some ['b', 'o', 'o', 'm'])
        ['x', '.', 'S', '1', 'E', '1', '.', 'a', 's', 's']
        [(['S', '0', '1', 'E', '0', '1'], ['V'])]
        [['x', '.', 'S', '1', 'E', '1', '.', 'a', 's', 's']] =
      ((false, false), Classif.renameFailed ['b', 'o', 'o', 'm'],
        [['x', '.', 'S', '1', 'E', '1', '.', 'a', 's', 's']]) ∧
    (process_directory (fun _ _ => some ['b', 'o', 'o', 'm'])
        [['V', '.', 'm', 'k', 'v'], ['x', '.', 'S', '1', 'E', '1', '.', 'a', 's', 's']]).outcomes.length =
      (assFilesOf
        [['V', '.', 'm', 'k', 'v'], ['x', '.', 'S', '1', 'E', '1', '.', 'a', 's', 's']]).length :=
  claim_C8 (fun _ _ => some ['b', 'o', 'o', 'm'])
    [['V', '.', 'm', 'k', 'v'], ['x', '.', 'S', '1', 'E', '1', '.', 'a', 's', 's']]
    ['x', '.', 'S', '1', 'E', '1', '.', 'a', 's', 's']
    [(['S', '0', '1', 'E', '0', '1'], ['V'])]
    [['x', '.', 'S', '1', 'E', '1', '.', 'a', 's', 's']]
    ⟨['1'], ['1'], none⟩ ['V'] ['b', 'o', 'o', 'm'] (by decide) (by decide)
    (by decide) (by decide) (by decide)

/-- C9: a collision outcome and a failed-rename outcome return the identical
(success, skipped) value (false, false), and the error counter of the
directory pass equals the number of collision-or-failed classifications, so
each such outcome contributes exactly one and the two are indistinguishable
from the returned counts. -/
theorem claim_C9 (o : LC → LC → Option LC) (filenames : List LC)
    (f1 : LC) (mp1 : List (LC × LC)) (fs1 : List LC) (m1 : ReMatch) (v1 : LC)
    (f2 : LC) (mp2 : List (LC × LC)) (fs2 : List LC) (m2 : ReMatch) (v2 e : LC)
    (hm1 : reSearch (splitext f1).1 = some m1)
    (hv1 : findKey mp1 (extract_base_key m1) = some v1)
    (hne1 : f1 ≠ new_filename v1 (splitext f1).2)
    (hmem1 : new_filename v1 (splitext f1).2 ∈ fs1)
    (hm2 : reSearch (splitext f2).1 = some m2)
    (hv2 : findKey mp2 (extract_base_key m2) = some v2)
    (hne2 : f2 ≠ new_filename v2 (splitext f2).2)
    (hnm2 : new_filename v2 (splitext f2).2 ∉ fs2)
    (he2 : o f2 (new_filename v2 (splitext f2).2) = some e) :
    (rename_single_ass_file o f1 mp1 fs1).1 = (false, false) ∧
    (rename_single_ass_file o f2 mp2 fs2).1 = (false, false) ∧
    (rename_single_ass_file o f1 mp1 fs1).1 =
      (rename_single_ass_file o f2 mp2 fs2).1 ∧
    isErrC (rename_single_ass_file o f1 mp1 fs1).2.1 = true ∧
    isErrC (rename_single_ass_file o f2 mp2 fs2).2.1 = true ∧
    (process_directory o filenames).errors =
      (process_directory o filenames).outcomes.countP isErrC := by
  have h1 := rs_collision o f1 mp1 fs1 m1 v1 hm1 hv1 hne1 hmem1
  have h2 := rs_renameFailed o f2 mp2 fs2 m2 v2 e hm2 hv2 hne2 hnm2 he2
  refine ⟨?_, ?_, ?_, ?_, ?_, (process_directory_accounting o filenames).2.1⟩
  · rw [h1]
  · rw [h2]
  · rw [h1, h2]
  · rw [h1]
    rfl
  · rw [h2]
    rfl

theorem claim_C9_witness :
    (rename_single_ass_file (fun _ _ => some ['b'])
        ['x', '.', 'S', '1', 'E', '1', '.', 'a', 's', 's']
        [(['S', '0', '1', 'E', '0', '1'], ['V'])]
        [['V', '.', 'a', 's', 's'], ['x', '.', 'S', '1', 'E', '1', '.', 'a', 's', 's']]).1 =
      (false, false) ∧
    (rename_single_ass_file (fun _ _ => some ['b'])
        ['x', '.', 'S', '1', 'E', '1', '.', 'a', 's', 's']
        [(['S', '0', '1', 'E', '0', '1'], ['V'])]
        [['x', '.', 'S', '1', 'E', '1', '.', 'a', 's', 's']]).1 =
      (false, false) := by
  have h := claim_C9 (fun _ _ => some ['b']) []
    ['x', '.', 'S', '1', 'E', '1', '.', 'a', 's', 's']
    [(['S', '0', '1', 'E', '0', '1'], ['V'])]
    [['V', '.', 'a', 's', 's'], ['x', '.', 'S', '1', 'E', '1', '.', 'a', 's', 's']]
    ⟨['1'], ['1'], none⟩ ['V']
    ['x', '.', 'S', '1', 'E', '1', '.', 'a', 's', 's']
    [(['S', '0', '1', 'E', '0', '1'], ['V'])]
    [['x', '.', 'S', '1', 'E', '1', '.', 'a', 's', 's']]
    ⟨['1'], ['1'], none⟩ ['V'] ['b'] (by decide) (by decide) (by decide)
    (by decide) (by decide) (by decide) (by decide) (by decide) (by decide)
  exact ⟨h.1, h.2.1⟩

/-- C10: the error counter of the directory pass counts exactly the
collision and failed-rename classifications of subtitle files, for every
failure oracle and every directory; duplicate-video-key warnings are not
part of it, and concretely a directory holding two video files with the same
key and no subtitle files emits a duplicate warning yet reports zero
errors. -/
theorem claim_C10 (o : LC → LC → Option LC) (filenames : List LC) :
    (process_directory o filenames).errors =
      (process_directory o filenames).outcomes.countP isErrC ∧
    (build_mkv_map [['A', '.', 'S', '1', 'E', '1', '.', 'm', 'k', 'v'],
        ['B', '.', 'S', '1', 'E', '1', '.', 'm', 'k', 'v']]).2 ≠ [] ∧
    (process_directory noFail [['A', '.', 'S', '1', 'E', '1', '.', 'm', 'k', 'v'],
        ['B', '.', 'S', '1', 'E', '1', '.', 'm', 'k', 'v']]).errors = 0 ∧
    (process_directory noFail [['A', '.', 'S', '1', 'E', '1', '.', 'm', 'k', 'v'],
        ['B', '.', 'S', '1', 'E', '1', '.', 'm', 'k', 'v']]).renamed = 0 :=
  ⟨(process_directory_accounting o filenames).2.1, by decide, by decide, by decide⟩

theorem goodMap_value (mp : List (LC × LC)) (k v : LC) (hg : GoodMap mp)
    (h : findKey mp k = some v) : extractKey v = some k :=
  hg (k, v) (findKey_mem mp k v h)

theorem lowerStr_assExt : lowerStr assExt = assExt := by decide

theorem value_file_target (mp : List (LC × LC)) (hg : GoodMap mp) (k2 v2 : LC)
    (hv2 : findKey mp k2 = some v2) (m : ReMatch) (v : LC)
    (hm : reSearch (splitext (v2 ++ assExt)).1 = some m)
    (hv : findKey mp (extract_base_key m) = some v) :
    new_filename v (splitext (v2 ++ assExt)).2 = v2 ++ assExt := by
  have hek : extractKey v2 = some k2 := goodMap_value mp k2 v2 hg hv2
  obtain ⟨mv, hmv, hkv⟩ : ∃ mv, reSearch v2 = some mv ∧ extract_base_key mv = k2 := by
    cases hre : reSearch v2 with
    | none => rw [extractKey, hre] at hek; exact Option.noConfusion hek
    | some mv =>
      rw [extractKey, hre] at hek
      exact ⟨mv, rfl, by simpa using hek⟩
  have hS : ∃ c ∈ v2, isSCh c = true := reSearch_some_hasS v2 mv hmv
  have hsp : splitext (v2 ++ assExt) = (v2, assExt) := splitext_value_ass v2 hS
  rw [hsp] at hm
  rw [hmv] at hm
  have hmm : mv = m := by injection hm
  subst hmm
  rw [hkv] at hv
  have hvv : v = v2 := by
    rw [hv2] at hv
    injection hv with h
    exact h.symm
  subst hvv
  rw [hsp]
  show v ++ lowerStr assExt = v ++ assExt
  rw [lowerStr_assExt]

theorem skipCond_value (mp : List (LC × LC)) (fs : List LC) (hg : GoodMap mp)
    (k2 v2 : LC) (hv2 : findKey mp k2 = some v2) :
    SkipCond mp fs (v2 ++ assExt) := by
  intro m v hm hv
  exact Or.inl (value_file_target mp hg k2 v2 hv2 m v hm hv)

theorem value_file_ne_renamed (mp : List (LC × LC)) (hg : GoodMap mp) (a : LC)
    (m : ReMatch) (v : LC) (hm : reSearch (splitext a).1 = some m)
    (hv : findKey mp (extract_base_key m) = some v)
    (hne : a ≠ new_filename v (splitext a).2)
    (k2 v2 : LC) (hv2 : findKey mp k2 = some v2) :
    v2 ++ assExt ≠ a := by
  intro hEq
  apply hne
  rw [← hEq] at hm ⊢
  exact (value_file_target mp hg k2 v2 hv2 m v hm hv).symm

theorem rs_noFail_cases (f : LC) (mp : List (LC × LC)) (fs : List LC) :
    ((rename_single_ass_file noFail f mp fs).1.1 = false ∧
     (rename_single_ass_file noFail f mp fs).2.2 = fs ∧ SkipCond mp fs f) ∨
    (∃ m v, reSearch (splitext f).1 = some m ∧
      findKey mp (extract_base_key m) = some v ∧
      f ≠ new_filename v (splitext f).2 ∧
      new_filename v (splitext f).2 ∉ fs ∧
      rename_single_ass_file noFail f mp fs =
        ((true, false), Classif.renamed,
          fs.erase f ++ [new_filename v (splitext f).2])) := by
  cases hm : reSearch (splitext f).1 with
  | none =>
    left
    have h := rs_noKey noFail f mp fs hm
    refine ⟨by rw [h], by rw [h], ?_⟩
    intro m2 v2 hm2 _
    rw [hm] at hm2
    exact Option.noConfusion hm2
  | some m =>
    cases hv : findKey mp (extract_base_key m) with
    | none =>
      left
      have h := rs_noMatch noFail f mp fs m hm hv
      refine ⟨by rw [h], by rw [h], ?_⟩
      intro m2 v2 hm2 hv2
      rw [hm] at hm2
      injection hm2 with hmm
      subst hmm
      rw [hv] at hv2
      exact Option.noConfusion hv2
    | some v =>
      by_cases heq : f = new_filename v (splitext f).2
      · left
        have h := rs_already noFail f mp fs m v hm hv heq
        refine ⟨by rw [h], by rw [h], ?_⟩
        intro m2 v2 hm2 hv2
        rw [hm] at hm2
        injection hm2 with hmm
        subst hmm
        rw [hv] at hv2
        injection hv2 with hvv
        subst hvv
        exact Or.inl heq.symm
      · by_cases hmem : new_filename v (splitext f).2 ∈ fs
        · left
          have h := rs_collision noFail f mp fs m v hm hv heq hmem
          refine ⟨by rw [h], by rw [h], ?_⟩
          intro m2 v2 hm2 hv2
          rw [hm] at hm2
          injection hm2 with hmm
          subst hmm
          rw [hv] at hv2
          injection hv2 with hvv
          subst hvv
          exact Or.inr hmem
        · right
          exact ⟨m, v, rfl, hv, heq, hmem,
            rs_renamed noFail f mp fs m v hm hv heq hmem rfl⟩

theorem rs_noFail_skip (f : LC) (mp : List (LC × LC)) (fs : List LC)
    (hs : SkipCond mp fs f) :
    (rename_single_ass_file noFail f mp fs).1.1 = false ∧
    (rename_single_ass_file noFail f mp fs).2.2 = fs := by
  rcases rs_noFail_cases f mp fs with ⟨h1, h2, _⟩ | ⟨m, v, hm, hv, hne, hnm, _⟩
  · exact ⟨h1, h2⟩
  · rcases hs m v hm hv with he | he
    · exact absurd he.symm hne
    · exact absurd he hnm

theorem filter_erase_of_not (p : LC → Bool) (fs : List LC) (a : LC)
    (hpa : p a = false) : (fs.erase a).filter p = fs.filter p := by
  induction fs with
  | nil => rfl
  | cons x xs ih =>
    by_cases hx : x = a
    · subst hx
      rw [List.erase_cons_head]
      simp [List.filter_cons, hpa]
    · rw [List.erase_cons_tail (by simpa using hx)]
      by_cases hpx : p x = true
      · simp [List.filter_cons, hpx, ih]
      · simp only [Bool.not_eq_true] at hpx
        simp [List.filter_cons, hpx, ih]

theorem filter_erase_append (p : LC → Bool) (fs : List LC) (a t : LC)
    (hpa : p a = false) (hpt : p t = false) :
    (fs.erase a ++ [t]).filter p = fs.filter p := by
  rw [List.filter_append, filter_erase_of_not p fs a hpa]
  simp [List.filter_cons, hpt]

theorem isAss_not_mkv (f : LC) (h : isAssFile f = true) : isMkvFile f = false := by
  rw [Bool.eq_false_iff]
  intro hm
  have h1 : assExt <:+ lowerStr f := of_decide_eq_true h
  have h2 : mkvExt <:+ lowerStr f := of_decide_eq_true hm
  obtain ⟨t1, ht1⟩ := h1
  obtain ⟨t2, ht2⟩ := h2
  have heq : t1 ++ assExt = t2 ++ mkvExt := ht1.trans ht2.symm
  have hlen : t1.length = t2.length := by
    have := congrArg List.length heq
    simp only [List.length_append] at this
    simp only [assExt, mkvExt, List.length_cons, List.length_nil] at this
    omega
  have hext := (List.append_inj heq hlen).2
  exact absurd hext (by decide)

theorem isAss_append_assExt (v : LC) : isAssFile (v ++ assExt) = true := by
  apply decide_eq_true
  show assExt <:+ lowerStr (v ++ assExt)
  rw [lowerStr, List.map_append]
  exact ⟨List.map lowerCh v, by rw [show List.map lowerCh assExt = assExt from by decide]⟩

theorem dirStep_noFail_fs (mp : List (LC × LC)) (st : DirResult) (f : LC) :
    ((dirStep noFail mp st f).fs = st.fs) ∨
    (∃ m v, reSearch (splitext f).1 = some m ∧
      findKey mp (extract_base_key m) = some v ∧
      f ≠ new_filename v (splitext f).2 ∧
      new_filename v (splitext f).2 ∉ st.fs ∧
      (dirStep noFail mp st f).fs =
        st.fs.erase f ++ [new_filename v (splitext f).2]) := by
  rcases rs_noFail_cases f mp st.fs with ⟨_, h2, _⟩ | ⟨m, v, hm, hv, hne, hnm, h⟩
  · exact Or.inl h2
  · right
    refine ⟨m, v, hm, hv, hne, hnm, ?_⟩
    show (rename_single_ass_file noFail f mp st.fs).2.2 = _
    rw [h]

theorem dirStep_noFail_mkv (mp : List (LC × LC)) (st : DirResult) (f : LC)
    (hass : isAssFile f = true) :
    (dirStep noFail mp st f).fs.filter isMkvFile = st.fs.filter isMkvFile := by
  rcases dirStep_noFail_fs mp st f with h | ⟨m, v, hm, hv, hne, hnm, h⟩
  · rw [h]
  · rw [h]
    have hext := ass_with_key_ext f hass m hm
    have ht : new_filename v (splitext f).2 = v ++ assExt := by
      rw [new_filename, hext]
    rw [ht]
    exact filter_erase_append _ _ _ _ (isAss_not_mkv f hass)
      (isAss_not_mkv _ (isAss_append_assExt v))

theorem dirStep_noFail_nodup (mp : List (LC × LC)) (st : DirResult) (f : LC)
    (h : st.fs.Nodup) : (dirStep noFail mp st f).fs.Nodup := by
  rcases dirStep_noFail_fs mp st f with heq | ⟨m, v, hm, hv, hne, hnm, heq⟩
  · rw [heq]
    exact h
  · rw [heq, List.nodup_append]
    refine ⟨h.erase f, List.nodup_singleton _, ?_⟩
    intro x hx hxt
    simp only [List.mem_singleton] at hxt
    subst hxt
    exact hnm (List.mem_of_mem_erase hx)

theorem fold_noFail_mkv (mp : List (LC × LC)) (L : List LC) :
    ∀ st : DirResult, (∀ f ∈ L, isAssFile f = true) →
      (L.foldl (dirStep noFail mp) st).fs.filter isMkvFile =
        st.fs.filter isMkvFile := by
  induction L with
  | nil => intro st _; rfl
  | cons a L2 ih =>
    intro st hL
    rw [List.foldl_cons,
      ih (dirStep noFail mp st a) (fun f hf => hL f (List.mem_cons_of_mem _ hf)),
      dirStep_noFail_mkv mp st a (hL a (List.mem_cons_self a L2))]

theorem fold_establishes_skip (mp : List (LC × LC)) (hg : GoodMap mp)
    (R : List LC) :
    ∀ st : DirResult,
      (∀ f ∈ R, isAssFile f = true) →
      st.fs.Nodup →
      (∀ f ∈ st.fs, isAssFile f = true → f ∈ R ∨ SkipCond mp st.fs f) →
      (R.foldl (dirStep noFail mp) st).fs.Nodup ∧
      (∀ f ∈ (R.foldl (dirStep noFail mp) st).fs, isAssFile f = true →
        SkipCond mp (R.foldl (dirStep noFail mp) st).fs f) := by
  induction R with
  | nil =>
    intro st _ hnd hinv
    refine ⟨hnd, fun f hf ha => ?_⟩
    rcases hinv f hf ha with h | h
    · exact absurd h (List.not_mem_nil f)
    · exact h
  | cons a R2 ih =>
    intro st hR hnd hinv
    rw [List.foldl_cons]
    apply ih (dirStep noFail mp st a) (fun f hf => hR f (List.mem_cons_of_mem _ hf))
      (dirStep_noFail_nodup mp st a hnd)
    intro f hf ha
    rcases rs_noFail_cases a mp st.fs with ⟨_, h2, hsc⟩ | ⟨m, v, hm, hv, hne, hnm, hres⟩
    · have hfs : (dirStep noFail mp st a).fs = st.fs := h2
      rw [hfs] at hf ⊢
      rcases hinv f hf ha with hmem | hskip
      · rcases List.mem_cons.mp hmem with rfl | hmem2
        · exact Or.inr hsc
        · exact Or.inl hmem2
      · exact Or.inr hskip
    · have hassa : isAssFile a = true := hR a (List.mem_cons_self a R2)
      have hext := ass_with_key_ext a hassa m hm
      have ht : new_filename v (splitext a).2 = v ++ assExt := by
        rw [new_filename, hext]
      have hfs : (dirStep noFail mp st a).fs =
          st.fs.erase a ++ [v ++ assExt] := by
        show (rename_single_ass_file noFail a mp st.fs).2.2 = _
        rw [hres, ht]
      rw [hfs] at hf ⊢
      rcases List.mem_append.mp hf with hf1 | hf2
      · have hfm : f ≠ a ∧ f ∈ st.fs := (hnd.mem_erase_iff).mp hf1
        rcases hinv f hfm.2 ha with hmem | hskip
        · rcases List.mem_cons.mp hmem with rfl | hmem2
          · exact absurd rfl hfm.1
          · exact Or.inl hmem2
        · right
          intro m2 v2 hm2 hv2
          rcases hskip m2 v2 hm2 hv2 with he | he
          · exact Or.inl he
          · right
            have hta : new_filename v2 (splitext f).2 = v2 ++ assExt := by
              rw [new_filename, ass_with_key_ext f ha m2 hm2]
            have hne2 : new_filename v2 (splitext f).2 ≠ a := by
              rw [hta]
              exact value_file_ne_renamed mp hg a m v hm hv hne
                (extract_base_key m2) v2 hv2
            rw [List.mem_append]
            left
            exact (List.mem_erase_of_ne hne2).mpr he
      · simp only [List.mem_singleton] at hf2
        subst hf2
        exact Or.inr (skipCond_value mp _ hg (extract_base_key m) v hv)

theorem fold_all_skip (mp : List (LC × LC)) (F : List LC)
    (hskip : ∀ f ∈ F, isAssFile f = true → SkipCond mp F f) (L : List LC) :
    ∀ st : DirResult, st.fs = F → (∀ f ∈ L, f ∈ F ∧ isAssFile f = true) →
      (L.foldl (dirStep noFail mp) st).fs = F ∧
      (L.foldl (dirStep noFail mp) st).renamed = st.renamed := by
  induction L with
  | nil => intro st hst _; exact ⟨hst, rfl⟩
  | cons a L2 ih =>
    intro st hst hL
    rw [List.foldl_cons]
    obtain ⟨haF, hassa⟩ := hL a (List.mem_cons_self a L2)
    have hsk : SkipCond mp st.fs a := by
      rw [hst]
      exact hskip a haF hassa
    have hstep := rs_noFail_skip a mp st.fs hsk
    have hfs : (dirStep noFail mp st a).fs = st.fs := hstep.2
    have hren : (dirStep noFail mp st a).renamed = st.renamed := by
      simp [dirStep, hstep.1]
    obtain ⟨h1, h2⟩ := ih (dirStep noFail mp st a) (by rw [hfs, hst])
      (fun f hf => hL f (List.mem_cons_of_mem _ hf))
    exact ⟨h1, by rw [h2, hren]⟩

/-- Refutation input for the classification half of the idempotence claim:
a directory holding a single subtitle file with no season/episode marker.
The second run classifies it no-key-found again, not already-correct-name. -/
theorem claim_C3_counterexample :
    (process_directory noFail
      ((process_directory noFail
        [['R', 'a', 'n', 'd', 'o', 'm', '.', 'a', 's', 's']]).fs)).outcomes =
      [Classif.noKey] ∧
    Classif.noKey ≠ Classif.alreadyCorrect := by
  exact ⟨by decide, by decide⟩

/-- C3 (amended): on a duplicate-free directory listing, running the
directory pass a second time on the state the first pass produced is a
no-op: its listing is unchanged and it performs zero renames (files without
a key, without a matching video, or blocked by a collision keep their skip
classification rather than becoming already-correct-name, so only the
no-rename half of the original claim survives). -/
theorem claim_C3 (filenames : List LC) (hnd : filenames.Nodup) :
    (process_directory noFail ((process_directory noFail filenames).fs)).fs =
      (process_directory noFail filenames).fs ∧
    (process_directory noFail ((process_directory noFail filenames).fs)).renamed =
      0 := by
  have hg : GoodMap (build_mkv_map filenames).1 := by
    rw [build_mkv_map_eq_pairs]
    refine goodMap_pairs_foldl (mkvPairs filenames) ?_ ([], []) ?_
    · rw [mkvPairs_eq]
      exact filesPairs_good _
    · intro p hp
      exact absurd hp (List.not_mem_nil p)
  have hrun1 : process_directory noFail filenames =
      (assFilesOf filenames).foldl (dirStep noFail (build_mkv_map filenames).1)
        ⟨0, 0, filenames, []⟩ := rfl
  obtain ⟨hndF, hskipF⟩ := fold_establishes_skip (build_mkv_map filenames).1 hg
    (assFilesOf filenames) ⟨0, 0, filenames, []⟩
    (fun f hf => (List.mem_filter.mp hf).2)
    hnd
    (fun f hf ha => Or.inl (List.mem_filter.mpr ⟨hf, ha⟩))
  have hmkv : ((assFilesOf filenames).foldl
      (dirStep noFail (build_mkv_map filenames).1)
      ⟨0, 0, filenames, []⟩).fs.filter isMkvFile = filenames.filter isMkvFile :=
    fold_noFail_mkv (build_mkv_map filenames).1 (assFilesOf filenames)
      ⟨0, 0, filenames, []⟩ (fun f hf => (List.mem_filter.mp hf).2)
  have hmp2 : (build_mkv_map ((process_directory noFail filenames).fs)).1 =
      (build_mkv_map filenames).1 := by
    have hb : build_mkv_map ((process_directory noFail filenames).fs) =
        build_mkv_map filenames := by
      rw [build_mkv_map, build_mkv_map, hrun1, hmkv]
    rw [hb]
  have hrun2 : process_directory noFail ((process_directory noFail filenames).fs) =
      (assFilesOf ((process_directory noFail filenames).fs)).foldl
        (dirStep noFail
          (build_mkv_map ((process_directory noFail filenames).fs)).1)
        ⟨0, 0, (process_directory noFail filenames).fs, []⟩ := rfl
  rw [hrun2, hmp2]
  have hskipF2 : ∀ f ∈ (process_directory noFail filenames).fs,
      isAssFile f = true →
      SkipCond (build_mkv_map filenames).1
        ((process_directory noFail filenames).fs) f := by
    intro f hf ha
    rw [hrun1] at hf ⊢
    exact hskipF f hf ha
  obtain ⟨h1, h2⟩ := fold_all_skip (build_mkv_map filenames).1
    ((process_directory noFail filenames).fs) hskipF2
    (assFilesOf ((process_directory noFail filenames).fs))
    ⟨0, 0, (process_directory noFail filenames).fs, []⟩ rfl
    (fun f hf => ⟨(List.mem_filter.mp hf).1, (List.mem_filter.mp hf).2⟩)
  exact ⟨h1, by rw [h2]⟩

theorem claim_C3_witness :
    ([['S', '1', 'E', '1', '.', 'm', 'k', 'v'],
      ['x', '.', 'S', '1', 'E', '1', '.', 'a', 's', 's'],
      ['R', 'a', 'n', 'd', 'o', 'm', '.', 'a', 's', 's']] : List LC).Nodup ∧
    (process_directory noFail
      ((process_directory noFail
        [['S', '1', 'E', '1', '.', 'm', 'k', 'v'],
         ['x', '.', 'S', '1', 'E', '1', '.', 'a', 's', 's'],
         ['R', 'a', 'n', 'd', 'o', 'm', '.', 'a', 's', 's']]).fs)).fs =
      (process_directory noFail
        [['S', '1', 'E', '1', '.', 'm', 'k', 'v'],
         ['x', '.', 'S', '1', 'E', '1', '.', 'a', 's', 's'],
         ['R', 'a', 'n', 'd', 'o', 'm', '.', 'a', 's', 's']]).fs ∧
    (process_directory noFail
      ((process_directory noFail
        [['S', '1', 'E', '1', '.', 'm', 'k', 'v'],
         ['x', '.', 'S', '1', 'E', '1', '.', 'a', 's', 's'],
         ['R', 'a', 'n', 'd', 'o', 'm', '.', 'a', 's', 's']]).fs)).renamed = 0 := by
  refine ⟨by decide, ?_, ?_⟩
  · exact (claim_C3 [['S', '1', 'E', '1', '.', 'm', 'k', 'v'],
      ['x', '.', 'S', '1', 'E', '1', '.', 'a', 's', 's'],
      ['R', 'a', 'n', 'd', 'o', 'm', '.', 'a', 's', 's']] (by decide)).1
  · exact (claim_C3 [['S', '1', 'E', '1', '.', 'm', 'k', 'v'],
      ['x', '.', 'S', '1', 'E', '1', '.', 'a', 's', 's'],
      ['R', 'a', 'n', 'd', 'o', 'm', '.', 'a', 's', 's']] (by decide)).2
